import Mathlib

/-!
Verification development for the sigScan runner core: a shallow embedding of
`src/runner/src/calldata.rs`, `src/runner/src/evm.rs` and the library-placeholder
replacement of `src/runner/src/compile.rs`, with theorems settling the frozen
claims about the strategy-directed argument synthesis and execution-ranking
engine.

Modelling conventions:
* Rust `&str`/`String` values become `List Char` (the strings involved — type
  tags, hex byte strings, labels — are ASCII, so chars model bytes 1:1).
* EVM addresses (`alloy_primitives::Address`, 20 bytes) become `Nat` holding
  the 160-bit numeric value; `Address::ZERO = 0`, `Address::with_last_byte(1) = 1`.
* `U256`/`I256` payloads become `Nat`/`Int` (only the values 0 and 1 occur).
* Fallible Rust functions returning `eyre::Result` become `Except`.
* External collaborators (the alloy elementary-type grammar parser, the alloy
  ABI codec `abi_encode_params`, and the revm execution engine) are parameters
  of the embedding, per the spec's §6 interface boundary.
-/

namespace SigScan

/-- EVM address modelled as its 160-bit numeric value. -/
abbrev Addr := Nat

/-- The three synthesis strategies of `calldata.rs` (`enum CallStrategy`). -/
inductive CallStrategy where
  | smartDefaults
  | callerAddress
  | zeroDefaults
deriving DecidableEq, Repr

/-- Canonical recursive type representation, mirroring `alloy_dyn_abi::DynSolType`
as used by the runner (variants: Bool, Uint, Int, Address, Bytes, String,
FixedBytes, Function, Array, FixedArray, Tuple). -/
inductive DynSolType where
  | bool
  | uint (bits : Nat)
  | int (bits : Nat)
  | address
  | bytes
  | string
  | fixedBytes (n : Nat)
  | function
  | array (elem : DynSolType)
  | fixedArray (elem : DynSolType) (n : Nat)
  | tuple (elems : List DynSolType)

/-- Value tree, mirroring `alloy_dyn_abi::DynSolValue` as used by the runner.
`uint`/`int` carry the numeric payload and the bit width; `fixedBytes` carries
the 32-byte backing word (`B256`) plus the width `n`; `function` carries the
24-byte payload. -/
inductive DynSolValue where
  | bool (b : Bool)
  | uint (v : Nat) (bits : Nat)
  | int (v : Int) (bits : Nat)
  | address (a : Addr)
  | bytes (bs : List UInt8)
  | string (s : List Char)
  | fixedBytes (word : List UInt8) (n : Nat)
  | function (payload : List UInt8)
  | array (xs : List DynSolValue)
  | fixedArray (xs : List DynSolValue)
  | tuple (xs : List DynSolValue)

/-- Wellformedness of a canonical type: fixed-bytes widths lie in `1..=32`
(the data-model invariant; `smart_value` in the source indexes a 32-byte array
at `n - 1`, so widths outside this range are outside the program's domain). -/
def DynSolType.wf : DynSolType → Bool
  | .fixedBytes n => 1 ≤ n && n ≤ 32
  | .array t => t.wf
  | .fixedArray t _ => t.wf
  | .tuple ts => wfList ts
  | _ => true
where
  /-- Wellformedness of every element of a list of canonical types. -/
  wfList : List DynSolType → Bool
  | [] => true
  | t :: ts => t.wf && wfList ts

/-- The 32-byte word built by `smart_value` for `FixedBytes(n)`: all zero except
byte `n - 1` set to 1 when `n > 0` (faithful for `n ≤ 32`; the Rust code panics
beyond that, which is outside the wellformed domain). -/
def smart_fixed_bytes_word (n : Nat) : List UInt8 :=
  (List.range 32).map (fun i => if n ≠ 0 ∧ i = n - 1 then 1 else 0)

/-- The 24-byte function-selector payload built by `smart_value`: all zero with
the last byte set to 1. -/
def smart_function_bytes : List UInt8 :=
  (List.range 24).map (fun i => if i = 23 then 1 else 0)

mutual

/-- Embedding of `smart_value` (calldata.rs): non-zero defaults that pass common
require guards. The `caller` argument is passed through exactly as in the source
(it is never used by a leaf). -/
def smart_value : DynSolType → Addr → DynSolValue
  | .bool, _ => .bool true
  | .uint b, _ => .uint 1 b
  | .int b, _ => .int 1 b
  | .address, _ => .address 1
  | .bytes, _ => .bytes [1]
  | .string, _ => .string ['a']
  | .fixedBytes n, _ => .fixedBytes (smart_fixed_bytes_word n) n
  | .function, _ => .function smart_function_bytes
  | .array t, c => .array [smart_value t c]
  | .fixedArray t n, c => .fixedArray (List.replicate n (smart_value t c))
  | .tuple ts, c => .tuple (smart_value_list ts c)

/-- The tuple branch of `smart_value`: synthesize each field in order. -/
def smart_value_list : List DynSolType → Addr → List DynSolValue
  | [], _ => []
  | t :: ts, c => smart_value t c :: smart_value_list ts c

end

mutual

/-- Embedding of `caller_value` (calldata.rs): the caller identity for address
leaves, recursion through aggregates, and `smart_value` for everything else. -/
def caller_value : DynSolType → Addr → DynSolValue
  | .address, c => .address c
  | .array t, c => .array [caller_value t c]
  | .fixedArray t n, c => .fixedArray (List.replicate n (caller_value t c))
  | .tuple ts, c => .tuple (caller_value_list ts c)
  | t, c => smart_value t c

/-- The tuple branch of `caller_value`. -/
def caller_value_list : List DynSolType → Addr → List DynSolValue
  | [], _ => []
  | t :: ts, c => caller_value t c :: caller_value_list ts c

end

mutual

/-- Embedding of `zero_value` (calldata.rs): all-zero / empty canonical values.
Note the dynamic-array case produces an empty sequence. -/
def zero_value : DynSolType → DynSolValue
  | .bool => .bool false
  | .uint b => .uint 0 b
  | .int b => .int 0 b
  | .address => .address 0
  | .bytes => .bytes []
  | .string => .string []
  | .fixedBytes n => .fixedBytes (List.replicate 32 0) n
  | .function => .function (List.replicate 24 0)
  | .array _ => .array []
  | .fixedArray t n => .fixedArray (List.replicate n (zero_value t))
  | .tuple ts => .tuple (zero_value_list ts)

/-- The tuple branch of `zero_value`. -/
def zero_value_list : List DynSolType → List DynSolValue
  | [] => []
  | t :: ts => zero_value t :: zero_value_list ts

end

/-- Embedding of `strategy_value` (calldata.rs): dispatch on the strategy. -/
def strategy_value (ty : DynSolType) (strategy : CallStrategy) (caller : Addr) : DynSolValue :=
  match strategy with
  | .smartDefaults => smart_value ty caller
  | .callerAddress => caller_value ty caller
  | .zeroDefaults => zero_value ty

/-- Nested induction principle for `DynSolType` (the `tuple` constructor holds a
list of subterms, so the membership form of the inductive hypothesis is used). -/
theorem dynSolType_induct {motive : DynSolType → Prop} (t : DynSolType)
    (hbool : motive .bool)
    (huint : ∀ b, motive (.uint b))
    (hint : ∀ b, motive (.int b))
    (haddress : motive .address)
    (hbytes : motive .bytes)
    (hstring : motive .string)
    (hfixedBytes : ∀ n, motive (.fixedBytes n))
    (hfunction : motive .function)
    (harray : ∀ t, motive t → motive (.array t))
    (hfixedArray : ∀ t n, motive t → motive (.fixedArray t n))
    (htuple : ∀ ts, (∀ t ∈ ts, motive t) → motive (.tuple ts)) :
    motive t :=
  match t with
  | .bool => hbool
  | .uint b => huint b
  | .int b => hint b
  | .address => haddress
  | .bytes => hbytes
  | .string => hstring
  | .fixedBytes n => hfixedBytes n
  | .function => hfunction
  | .array t => harray t (dynSolType_induct t hbool huint hint haddress hbytes hstring
      hfixedBytes hfunction harray hfixedArray htuple)
  | .fixedArray t n => hfixedArray t n (dynSolType_induct t hbool huint hint haddress hbytes
      hstring hfixedBytes hfunction harray hfixedArray htuple)
  | .tuple ts => htuple ts (fun t ht =>
      have : sizeOf t < sizeOf (DynSolType.tuple ts) := by
        have h := List.sizeOf_lt_of_mem ht
        simp only [DynSolType.tuple.sizeOf_spec]
        omega
      dynSolType_induct t hbool huint hint haddress hbytes hstring
        hfixedBytes hfunction harray hfixedArray htuple)
termination_by sizeOf t

/-- Nested induction principle for `DynSolValue`. -/
theorem dynSolValue_induct {motive : DynSolValue → Prop} (v : DynSolValue)
    (hbool : ∀ b, motive (.bool b))
    (huint : ∀ v b, motive (.uint v b))
    (hint : ∀ v b, motive (.int v b))
    (haddress : ∀ a, motive (.address a))
    (hbytes : ∀ bs, motive (.bytes bs))
    (hstring : ∀ s, motive (.string s))
    (hfixedBytes : ∀ w n, motive (.fixedBytes w n))
    (hfunction : ∀ p, motive (.function p))
    (harray : ∀ xs, (∀ x ∈ xs, motive x) → motive (.array xs))
    (hfixedArray : ∀ xs, (∀ x ∈ xs, motive x) → motive (.fixedArray xs))
    (htuple : ∀ xs, (∀ x ∈ xs, motive x) → motive (.tuple xs)) :
    motive v :=
  match v with
  | .bool b => hbool b
  | .uint v b => huint v b
  | .int v b => hint v b
  | .address a => haddress a
  | .bytes bs => hbytes bs
  | .string s => hstring s
  | .fixedBytes w n => hfixedBytes w n
  | .function p => hfunction p
  | .array xs => harray xs (fun x hx =>
      have : sizeOf x < sizeOf (DynSolValue.array xs) := by
        have h := List.sizeOf_lt_of_mem hx
        simp only [DynSolValue.array.sizeOf_spec]
        omega
      dynSolValue_induct x hbool huint hint haddress hbytes hstring
        hfixedBytes hfunction harray hfixedArray htuple)
  | .fixedArray xs => hfixedArray xs (fun x hx =>
      have : sizeOf x < sizeOf (DynSolValue.fixedArray xs) := by
        have h := List.sizeOf_lt_of_mem hx
        simp only [DynSolValue.fixedArray.sizeOf_spec]
        omega
      dynSolValue_induct x hbool huint hint haddress hbytes hstring
        hfixedBytes hfunction harray hfixedArray htuple)
  | .tuple xs => htuple xs (fun x hx =>
      have : sizeOf x < sizeOf (DynSolValue.tuple xs) := by
        have h := List.sizeOf_lt_of_mem hx
        simp only [DynSolValue.tuple.sizeOf_spec]
        omega
      dynSolValue_induct x hbool huint hint haddress hbytes hstring
        hfixedBytes hfunction harray hfixedArray htuple)
termination_by sizeOf v

/-! ## Shape of synthesized value trees (claim C3)

`shape_ok k t v` formalizes the spec's notion of "`v` has exactly `t`'s shape":
same variant (with matching integer widths and fixed-bytes/fixed-array sizes),
exactly `k` elements for a dynamic Array, and field count and order for Tuple.
The parameter `k` is the expected dynamic-array length (the claim asserts `k = 1`
for every strategy). -/

mutual

/-- Shape conformance of a value tree to a canonical type, with expected
dynamic-array length `k`. -/
def shape_ok (k : Nat) : DynSolType → DynSolValue → Bool
  | .bool, .bool _ => true
  | .uint b, .uint _ b2 => b == b2
  | .int b, .int _ b2 => b == b2
  | .address, .address _ => true
  | .bytes, .bytes _ => true
  | .string, .string _ => true
  | .fixedBytes n, .fixedBytes _ m => n == m
  | .function, .function _ => true
  | .array t, .array xs => (xs.length == k) && shape_ok_elems k t xs
  | .fixedArray t n, .fixedArray xs => (xs.length == n) && shape_ok_elems k t xs
  | .tuple ts, .tuple xs => shape_ok_fields k ts xs
  | _, _ => false

/-- Every element of `xs` conforms to the element type `t`. -/
def shape_ok_elems (k : Nat) (t : DynSolType) : List DynSolValue → Bool
  | [] => true
  | x :: xs => shape_ok k t x && shape_ok_elems k t xs

/-- Pointwise conformance of tuple fields, in order, with equal arity. -/
def shape_ok_fields (k : Nat) : List DynSolType → List DynSolValue → Bool
  | [], [] => true
  | t :: ts, x :: xs => shape_ok k t x && shape_ok_fields k ts xs
  | _, _ => false

end

/-- Conformance of a replicated element list. -/
theorem shape_ok_elems_replicate (k : Nat) (t : DynSolType) (v : DynSolValue) (n : Nat)
    (h : shape_ok k t v = true) : shape_ok_elems k t (List.replicate n v) = true := by
  induction n with
  | zero => rfl
  | succ n ih => simp [List.replicate_succ, shape_ok_elems, h, ih]

/-- Conformance of a field list built by mapping a conforming synthesizer. -/
theorem shape_ok_fields_map (k : Nat) (ts : List DynSolType) (f : DynSolType → DynSolValue)
    (h : ∀ t ∈ ts, shape_ok k t (f t) = true) :
    shape_ok_fields k ts (ts.map f) = true := by
  induction ts with
  | nil => rfl
  | cons t ts ih =>
    simp only [List.map_cons, shape_ok_fields, Bool.and_eq_true]
    exact ⟨h t (by simp), ih (fun t' ht' => h t' (by simp [ht']))⟩

/-- The tuple branch of `smart_value` is a `List.map`. -/
theorem smart_value_list_eq_map (ts : List DynSolType) (c : Addr) :
    smart_value_list ts c = ts.map (fun t => smart_value t c) := by
  induction ts with
  | nil => rfl
  | cons t ts ih => simp [smart_value_list, ih]

/-- The tuple branch of `caller_value` is a `List.map`. -/
theorem caller_value_list_eq_map (ts : List DynSolType) (c : Addr) :
    caller_value_list ts c = ts.map (fun t => caller_value t c) := by
  induction ts with
  | nil => rfl
  | cons t ts ih => simp [caller_value_list, ih]

/-- The tuple branch of `zero_value` is a `List.map`. -/
theorem zero_value_list_eq_map (ts : List DynSolType) :
    zero_value_list ts = ts.map zero_value := by
  induction ts with
  | nil => rfl
  | cons t ts ih => simp [zero_value_list, ih]

/-- `smart_value` always produces a value of its type's shape with singleton
dynamic arrays. -/
theorem shape_ok_smart_value (t : DynSolType) (c : Addr) :
    shape_ok 1 t (smart_value t c) = true := by
  induction t using dynSolType_induct with
  | hbool => rfl
  | huint b => simp [smart_value, shape_ok]
  | hint b => simp [smart_value, shape_ok]
  | haddress => rfl
  | hbytes => rfl
  | hstring => rfl
  | hfixedBytes n => simp [smart_value, shape_ok]
  | hfunction => rfl
  | harray t ih => simp [smart_value, shape_ok, shape_ok_elems, ih]
  | hfixedArray t n ih =>
    simp [smart_value, shape_ok, shape_ok_elems_replicate _ _ _ _ ih]
  | htuple ts ih =>
    simp only [smart_value, shape_ok, smart_value_list_eq_map]
    exact shape_ok_fields_map _ _ _ ih

/-- `caller_value` always produces a value of its type's shape with singleton
dynamic arrays. -/
theorem shape_ok_caller_value (t : DynSolType) (c : Addr) :
    shape_ok 1 t (caller_value t c) = true := by
  induction t using dynSolType_induct with
  | hbool => rfl
  | huint b => simp [caller_value, smart_value, shape_ok]
  | hint b => simp [caller_value, smart_value, shape_ok]
  | haddress => rfl
  | hbytes => rfl
  | hstring => rfl
  | hfixedBytes n => simp [caller_value, smart_value, shape_ok]
  | hfunction => rfl
  | harray t ih => simp [caller_value, shape_ok, shape_ok_elems, ih]
  | hfixedArray t n ih =>
    simp [caller_value, shape_ok, shape_ok_elems_replicate _ _ _ _ ih]
  | htuple ts ih =>
    simp only [caller_value, shape_ok, caller_value_list_eq_map]
    exact shape_ok_fields_map _ _ _ ih

/-- `zero_value` always produces a value of its type's shape with empty
dynamic arrays. -/
theorem shape_ok_zero_value (t : DynSolType) :
    shape_ok 0 t (zero_value t) = true := by
  induction t using dynSolType_induct with
  | hbool => rfl
  | huint b => simp [zero_value, shape_ok]
  | hint b => simp [zero_value, shape_ok]
  | haddress => rfl
  | hbytes => rfl
  | hstring => rfl
  | hfixedBytes n => simp [zero_value, shape_ok]
  | hfunction => rfl
  | harray t ih => simp [zero_value, shape_ok, shape_ok_elems]
  | hfixedArray t n ih =>
    simp [zero_value, shape_ok, shape_ok_elems_replicate _ _ _ _ ih]
  | htuple ts ih =>
    simp only [zero_value, shape_ok, zero_value_list_eq_map]
    exact shape_ok_fields_map _ _ _ ih

/-- Claim C3 as stated is false: under the ZeroDefaults strategy the
synthesized value for a dynamic array type is the empty sequence, not a
single element, so the value tree does not have "for Array, a single
element" shape. Concrete input: type `bool[]` (a wellformed canonical type),
strategy ZeroDefaults. -/
theorem c3_counterexample :
    DynSolType.wf (.array .bool) = true ∧
    shape_ok 1 (.array .bool) (strategy_value (.array .bool) .zeroDefaults 0) = false :=
  ⟨rfl, rfl⟩

/-- Claim C3 (amended): for every wellformed canonical type `T` and every
strategy, the synthesized value tree has exactly `T`'s variant, exactly `n`
elements for `FixedArray(_, n)`, and the field count and order of `T` for
tuples; a dynamic Array receives a single element under SmartDefaults and
CallerAddress, and an empty sequence under ZeroDefaults. -/
theorem c3_value_tree_shape (t : DynSolType) (c : Addr) (_hwf : t.wf = true) :
    shape_ok 1 t (strategy_value t .smartDefaults c) = true ∧
    shape_ok 1 t (strategy_value t .callerAddress c) = true ∧
    shape_ok 0 t (strategy_value t .zeroDefaults c) = true :=
  ⟨shape_ok_smart_value t c, shape_ok_caller_value t c, shape_ok_zero_value t⟩

/-- Witness for `c3_value_tree_shape` at the concrete type
`(address, uint256[])` and caller `7`. -/
theorem c3_value_tree_shape_witness :
    DynSolType.wf (.tuple [.address, .array (.uint 256)]) = true ∧
    shape_ok 1 (.tuple [.address, .array (.uint 256)])
      (strategy_value (.tuple [.address, .array (.uint 256)]) .smartDefaults 7) = true ∧
    shape_ok 1 (.tuple [.address, .array (.uint 256)])
      (strategy_value (.tuple [.address, .array (.uint 256)]) .callerAddress 7) = true ∧
    shape_ok 0 (.tuple [.address, .array (.uint 256)])
      (strategy_value (.tuple [.address, .array (.uint 256)]) .zeroDefaults 7) = true :=
  ⟨rfl, c3_value_tree_shape (.tuple [.address, .array (.uint 256)]) 7 rfl⟩

/-! ## Address leaves (claims C6 and C10) -/

mutual

/-- Replace every Address-typed leaf of a value tree by the caller identity
`c`, leaving every other leaf unchanged (specification-side description of
what `caller_value` does to a `smart_value` tree). -/
def replace_addr_leaves (c : Addr) : DynSolValue → DynSolValue
  | .address _ => .address c
  | .array xs => .array (replace_addr_leaves_list c xs)
  | .fixedArray xs => .fixedArray (replace_addr_leaves_list c xs)
  | .tuple xs => .tuple (replace_addr_leaves_list c xs)
  | v => v

/-- List version of `replace_addr_leaves`. -/
def replace_addr_leaves_list (c : Addr) : List DynSolValue → List DynSolValue
  | [] => []
  | x :: xs => replace_addr_leaves c x :: replace_addr_leaves_list c xs

end

mutual

/-- All Address-typed leaf payloads of a value tree, in order. -/
def addr_leaves : DynSolValue → List Addr
  | .address a => [a]
  | .array xs => addr_leaves_list xs
  | .fixedArray xs => addr_leaves_list xs
  | .tuple xs => addr_leaves_list xs
  | _ => []

/-- List version of `addr_leaves`. -/
def addr_leaves_list : List DynSolValue → List Addr
  | [] => []
  | x :: xs => addr_leaves x ++ addr_leaves_list xs

end

mutual

/-- Whether a canonical type contains an Address leaf anywhere. -/
def has_addr : DynSolType → Bool
  | .address => true
  | .array t => has_addr t
  | .fixedArray t _ => has_addr t
  | .tuple ts => has_addr_list ts
  | _ => false

/-- List version of `has_addr`. -/
def has_addr_list : List DynSolType → Bool
  | [] => false
  | t :: ts => has_addr t || has_addr_list ts

end

/-- `replace_addr_leaves` commutes with `List.replicate`. -/
theorem replace_addr_leaves_list_replicate (c : Addr) (v : DynSolValue) (n : Nat) :
    replace_addr_leaves_list c (List.replicate n v) =
      List.replicate n (replace_addr_leaves c v) := by
  induction n with
  | zero => rfl
  | succ n ih => simp [List.replicate_succ, replace_addr_leaves_list, ih]

/-- The list version of `replace_addr_leaves` is a `List.map`. -/
theorem replace_addr_leaves_list_eq_map (c : Addr) (xs : List DynSolValue) :
    replace_addr_leaves_list c xs = xs.map (replace_addr_leaves c) := by
  induction xs with
  | nil => rfl
  | cons x xs ih => simp [replace_addr_leaves_list, ih]

/-- On a `smart_value` tree, substituting the caller identity at the Address
leaves yields exactly the `caller_value` tree. -/
theorem caller_value_eq_replace_smart (t : DynSolType) (c : Addr) :
    caller_value t c = replace_addr_leaves c (smart_value t c) := by
  induction t using dynSolType_induct with
  | hbool => rfl
  | huint b => rfl
  | hint b => rfl
  | haddress => rfl
  | hbytes => rfl
  | hstring => rfl
  | hfixedBytes n => rfl
  | hfunction => rfl
  | harray t ih =>
    simp [caller_value, smart_value, replace_addr_leaves, replace_addr_leaves_list, ih]
  | hfixedArray t n ih =>
    simp [caller_value, smart_value, replace_addr_leaves,
      replace_addr_leaves_list_replicate, ih]
  | htuple ts ih =>
    simp only [caller_value, smart_value, replace_addr_leaves,
      replace_addr_leaves_list_eq_map, caller_value_list_eq_map, smart_value_list_eq_map,
      List.map_map]
    exact congrArg DynSolValue.tuple (List.map_congr_left
      (fun t ht => by simpa using ih t ht))

/-- Every address leaf of a tree produced by `replace_addr_leaves c` equals `c`. -/
theorem addr_leaves_replace_all_eq (c : Addr) (v : DynSolValue) :
    (addr_leaves (replace_addr_leaves c v)).all (fun a => a == c) = true := by
  induction v using dynSolValue_induct with
  | hbool b => rfl
  | huint v b => rfl
  | hint v b => rfl
  | haddress a => simp [replace_addr_leaves, addr_leaves]
  | hbytes bs => rfl
  | hstring s => rfl
  | hfixedBytes w n => rfl
  | hfunction p => rfl
  | harray xs ih =>
    simp only [replace_addr_leaves, addr_leaves]
    induction xs with
    | nil => rfl
    | cons x xs ihl =>
      simp only [replace_addr_leaves_list, addr_leaves_list, List.all_append,
        Bool.and_eq_true]
      exact ⟨ih x (by simp), ihl (fun x' hx' => ih x' (by simp [hx']))⟩
  | hfixedArray xs ih =>
    simp only [replace_addr_leaves, addr_leaves]
    induction xs with
    | nil => rfl
    | cons x xs ihl =>
      simp only [replace_addr_leaves_list, addr_leaves_list, List.all_append,
        Bool.and_eq_true]
      exact ⟨ih x (by simp), ihl (fun x' hx' => ih x' (by simp [hx']))⟩
  | htuple xs ih =>
    simp only [replace_addr_leaves, addr_leaves]
    induction xs with
    | nil => rfl
    | cons x xs ihl =>
      simp only [replace_addr_leaves_list, addr_leaves_list, List.all_append,
        Bool.and_eq_true]
      exact ⟨ih x (by simp), ihl (fun x' hx' => ih x' (by simp [hx']))⟩

/-- Claim C6: under the CallerAddress strategy the synthesized value tree is
exactly the SmartDefaults tree with every Address-typed leaf (at any nesting
depth) replaced by the fixed caller identity; in particular every Address leaf
of the CallerAddress tree equals the caller and every non-Address leaf carries
its SmartDefaults value. -/
theorem c6_caller_address_leaves (t : DynSolType) (c : Addr) (_hwf : t.wf = true) :
    strategy_value t .callerAddress c =
      replace_addr_leaves c (strategy_value t .smartDefaults c) ∧
    (addr_leaves (strategy_value t .callerAddress c)).all (fun a => a == c) = true := by
  refine ⟨caller_value_eq_replace_smart t c, ?_⟩
  show (addr_leaves (caller_value t c)).all (fun a => a == c) = true
  rw [caller_value_eq_replace_smart t c]
  exact addr_leaves_replace_all_eq c (smart_value t c)

/-- Witness for `c6_caller_address_leaves` at the concrete type
`(address, address[3], uint256)` and caller `9`. -/
theorem c6_caller_address_leaves_witness :
    DynSolType.wf (.tuple [.address, .fixedArray .address 3, .uint 256]) = true ∧
    (strategy_value (.tuple [.address, .fixedArray .address 3, .uint 256]) .callerAddress 9 =
      replace_addr_leaves 9
        (strategy_value (.tuple [.address, .fixedArray .address 3, .uint 256])
          .smartDefaults 9) ∧
    (addr_leaves (strategy_value (.tuple [.address, .fixedArray .address 3, .uint 256])
        .callerAddress 9)).all (fun a => a == 9) = true) :=
  ⟨rfl, c6_caller_address_leaves (.tuple [.address, .fixedArray .address 3, .uint 256]) 9 rfl⟩

/-- A canonical type with no Address leaf synthesizes identical trees under
CallerAddress and SmartDefaults, for every caller identity. -/
theorem caller_value_eq_smart_of_no_addr (t : DynSolType) (c : Addr)
    (h : has_addr t = false) : caller_value t c = smart_value t c := by
  induction t using dynSolType_induct with
  | hbool => rfl
  | huint b => rfl
  | hint b => rfl
  | haddress => exact absurd h (by simp [has_addr])
  | hbytes => rfl
  | hstring => rfl
  | hfixedBytes n => rfl
  | hfunction => rfl
  | harray t ih =>
    simp only [has_addr] at h
    simp [caller_value, smart_value, ih h]
  | hfixedArray t n ih =>
    simp only [has_addr] at h
    simp [caller_value, smart_value, ih h]
  | htuple ts ih =>
    simp only [caller_value, smart_value, caller_value_list_eq_map, smart_value_list_eq_map]
    refine congrArg DynSolValue.tuple (List.map_congr_left (fun t ht => ih t ht ?_))
    revert h
    induction ts with
    | nil => simp at ht
    | cons t' ts' ihl =>
      simp only [has_addr, has_addr_list, Bool.or_eq_false_iff]
      rcases List.mem_cons.mp ht with h1 | h1
      · intro hh; exact h1 ▸ hh.1
      · intro hh; exact ihl (fun t'' ht'' _ => ih t'' (by simp [ht'']) (by assumption)) h1 hh.2

/-! ## Type normalization (claims C4 and C7)

`param_to_dyn_sol_type` embeds the function of the same name in calldata.rs.
Failure modes are modelled explicitly: `typeParse tag` for the
`TypeParseError` carrying the offending tag, and `panic` for the Rust string
slicing `&ty_str[6..ty_str.len() - 1]`, which panics (start 6 > end 5) when
the tag is exactly `"tuple["`. The elementary-type grammar of
`str::parse::<DynSolType>` is external (alloy) and is a parameter. -/

/-- Outcome of a failed normalization: a `TypeParseError` with the offending
tag, or a Rust panic (out-of-range string slice). -/
inductive NormError where
  | typeParse (tag : List Char)
  | panic
deriving DecidableEq, Repr

/-- Interface parameter descriptor (`alloy_json_abi::Param`): a type tag
string plus component descriptors for aggregate types. -/
inductive Param where
  | mk (ty : List Char) (components : List Param)

/-- The type tag of a parameter descriptor. -/
def Param.ty : Param → List Char
  | .mk t _ => t

/-- The component descriptors of a parameter descriptor. -/
def Param.components : Param → List Param
  | .mk _ cs => cs

/-- Embedding of Rust's `str::parse::<usize>`: an optional leading `'+'`,
then one or more ASCII digits, with the 64-bit overflow bound of `usize`. -/
def parse_usize (s : List Char) : Option Nat :=
  let digits := match s with
    | '+' :: rest => rest
    | _ => s
  if digits.isEmpty then none
  else if digits.all Char.isDigit then
    let v := digits.foldl (fun acc c => acc * 10 + (c.toNat - 48)) 0
    if v < 2 ^ 64 then some v else none
  else none

mutual

/-- Embedding of `param_to_dyn_sol_type` (calldata.rs). `ep` is the external
elementary-type grammar parser (`str::parse::<DynSolType>` from alloy),
returning `none` where the real parser fails; the `wrap_err_with` of the
source turns that failure into the `TypeParseError` carrying the tag. -/
def param_to_dyn_sol_type (ep : List Char → Option DynSolType) :
    Param → Except NormError DynSolType
  | .mk ty comps =>
    if ty = "tuple".toList then
      match params_to_dyn_sol_types ep comps with
      | .error e => .error e
      | .ok inner => .ok (.tuple inner)
    else if "tuple[".toList.isPrefixOf ty then
      match params_to_dyn_sol_types ep comps with
      | .error e => .error e
      | .ok inner =>
        if ty = "tuple[]".toList then .ok (.array (.tuple inner))
        else if ty.length < 7 then .error .panic
        else
          match parse_usize ((ty.drop 6).dropLast) with
          | some n => .ok (.fixedArray (.tuple inner) n)
          | none => .ok (.array (.tuple inner))
    else
      match ep ty with
      | some t => .ok t
      | none => .error (.typeParse ty)

/-- Normalization of a component list in order, stopping at the first failure
(the `collect::<Result<Vec<_>>>` of the source). -/
def params_to_dyn_sol_types (ep : List Char → Option DynSolType) :
    List Param → Except NormError (List DynSolType)
  | [] => .ok []
  | p :: ps =>
    match param_to_dyn_sol_type ep p with
    | .error e => .error e
    | .ok t =>
      match params_to_dyn_sol_types ep ps with
      | .error e => .error e
      | .ok ts => .ok (t :: ts)

end

/-! ## Calldata encoding (claims C7, C8, C10) -/

/-- The two external alloy primitives the encoder depends on: the
elementary-type grammar parser and the canonical ABI codec
(`DynSolValue::abi_encode_params`). -/
structure Ext where
  elemParse : List Char → Option DynSolType
  abiEncodeParams : DynSolValue → List UInt8

/-- A function of the interface description (`alloy_json_abi::Function`):
name, ordered parameter list, and the selector/signature derived externally
from the canonical signature. -/
structure FuncAbi where
  name : List Char
  inputs : List Param
  selector : List UInt8
  signature : List Char

/-- A constructor of the interface description. -/
structure CtorAbi where
  inputs : List Param

/-- Interface description of a compiled contract (`alloy_json_abi::JsonAbi`):
an optional constructor and the function list. The source iterates a
name-keyed map of function overload lists; the claims are per-function, so the
flattened iteration sequence is modelled as a list. -/
structure JsonAbi where
  ctor : Option CtorAbi
  functions : List FuncAbi

/-- Value synthesis for a parameter list: normalize each descriptor and
synthesize its value under the strategy, stopping at the first normalization
failure (the shared `map`/`collect` body of both encoding entry points). -/
def build_values (ext : Ext) (strategy : CallStrategy) (caller : Addr) :
    List Param → Except NormError (List DynSolValue)
  | [] => .ok []
  | p :: ps =>
    match param_to_dyn_sol_type ext.elemParse p with
    | .error e => .error e
    | .ok t =>
      match build_values ext strategy caller ps with
      | .error e => .error e
      | .ok vs => .ok (strategy_value t strategy caller :: vs)

/-- Embedding of `encode_calldata_with_strategy` (calldata.rs): the 4-byte
selector for an empty parameter list, otherwise the selector followed by the
flattened ABI encoding of the synthesized parameter tuple. -/
def encode_calldata_with_strategy (ext : Ext) (func : FuncAbi)
    (strategy : CallStrategy) (caller : Addr) : Except NormError (List UInt8) :=
  if func.inputs.isEmpty then .ok func.selector
  else
    match build_values ext strategy caller func.inputs with
    | .error e => .error e
    | .ok vs => .ok (func.selector ++ ext.abiEncodeParams (.tuple vs))

/-- Embedding of `encode_constructor_args_with_strategy` (calldata.rs): empty
bytes when the constructor is absent or has no parameters, otherwise the
flattened ABI encoding of the synthesized argument tuple (no selector). -/
def encode_constructor_args_with_strategy (ext : Ext) (abi : JsonAbi)
    (strategy : CallStrategy) (caller : Addr) : Except NormError (List UInt8) :=
  match abi.ctor with
  | some c =>
    if c.inputs.isEmpty then .ok []
    else
      match build_values ext strategy caller c.inputs with
      | .error e => .error e
      | .ok vs => .ok (ext.abiEncodeParams (.tuple vs))
  | none => .ok []

/-- The first normalization failure in a parameter list, if any. -/
def first_norm_error (ep : List Char → Option DynSolType) :
    List Param → Option NormError
  | [] => none
  | p :: ps =>
    match param_to_dyn_sol_type ep p with
    | .error e => some e
    | .ok _ => first_norm_error ep ps

/-- Whether an `Except` is a success. -/
def except_ok : Except ε α → Bool
  | .ok _ => true
  | .error _ => false

/-- Whether an `Except NormError` result is a `TypeParseError`. -/
def is_type_parse_error : Except NormError α → Bool
  | .error (.typeParse _) => true
  | _ => false

/-- A concrete instance of the external elementary-type parser, recognizing a
few elementary tags, for use in closed witnesses and counterexamples. -/
def ep_demo : List Char → Option DynSolType := fun s =>
  if s = "bool".toList then some .bool
  else if s = "uint256".toList then some (.uint 256)
  else if s = "address".toList then some .address
  else none

/-- A concrete instance of the external primitives (demo parser, trivial
codec) for use in closed witnesses and counterexamples. -/
def ext_demo : Ext :=
  ⟨ep_demo, fun _ => [0xab]⟩

/-- Claim C4 as stated is false: the Type Normalizer is not total on tags
beginning with `"tuple["` — a component descriptor that fails normalization
aborts the whole parameter with its `TypeParseError`. Concrete input: tag
`"tuple[]"` with a single component whose tag `"bogus"` is not parseable. -/
theorem c4_counterexample :
    "tuple[".toList.isPrefixOf ("tuple[]".toList) = true ∧
    param_to_dyn_sol_type ep_demo (.mk "tuple[]".toList [.mk "bogus".toList []]) =
      .error (.typeParse "bogus".toList) :=
  ⟨rfl, rfl⟩

/-- Claim C4 (amended): for a tag beginning `"tuple["`, the Type Normalizer
first normalizes the components; if they all succeed and the tag extends
beyond the bracket, it succeeds, wrapping the Tuple in Array for suffix
`"[]"`, in `FixedArray(_, N)` when the bracket content parses as a
non-negative integer `N`, and in a dynamic Array for any other bracket
content; a failing component propagates its `TypeParseError`; and on the bare
tag `"tuple["` the normalizer aborts (Rust string-slice panic) instead of
returning a result. -/
theorem c4_tuple_bracket_normalization :
    (∀ (ep : List Char → Option DynSolType) (ty : List Char) (comps : List Param)
        (inner : List DynSolType),
      "tuple[".toList.isPrefixOf ty = true → ty ≠ "tuple[".toList →
      params_to_dyn_sol_types ep comps = .ok inner →
      param_to_dyn_sol_type ep (.mk ty comps) =
        .ok (if ty = "tuple[]".toList then .array (.tuple inner)
             else match parse_usize ((ty.drop 6).dropLast) with
                  | some n => .fixedArray (.tuple inner) n
                  | none => .array (.tuple inner))) ∧
    (∀ (ep : List Char → Option DynSolType) (ty : List Char) (comps : List Param)
        (e : NormError),
      "tuple[".toList.isPrefixOf ty = true →
      params_to_dyn_sol_types ep comps = .error e →
      param_to_dyn_sol_type ep (.mk ty comps) = .error e) ∧
    (∀ (ep : List Char → Option DynSolType) (comps : List Param)
        (inner : List DynSolType),
      params_to_dyn_sol_types ep comps = .ok inner →
      param_to_dyn_sol_type ep (.mk "tuple[".toList comps) = .error .panic) := by
  refine ⟨?_, ?_, ?_⟩
  · intro ep ty comps inner hpre hne hcomps
    have hp : "tuple[".toList <+: ty := List.isPrefixOf_iff_prefix.mp hpre
    have hlen : 6 ≤ ty.length := by
      have h1 := hp.length_le
      have h2 : ("tuple[".toList).length = 6 := rfl
      omega
    have hne7 : ¬ ty.length < 7 := by
      intro hlt
      have h2 : ("tuple[".toList).length = 6 := rfl
      exact hne (hp.eq_of_length (by omega)).symm
    have hnt : ty ≠ "tuple".toList := by
      intro h
      subst h
      have h2 : ("tuple".toList).length = 5 := rfl
      omega
    by_cases hq : ty = "tuple[]".toList
    · simp [param_to_dyn_sol_type, hnt, hpre, hcomps, hq]
    · simp only [param_to_dyn_sol_type, hcomps]
      rw [if_neg hnt]
      simp only [hpre, if_true, if_neg hq, if_neg hne7]
      cases hu : parse_usize ((ty.drop 6).dropLast) <;> simp [hu, hq]
  · intro ep ty comps e hpre hcomps
    have hp : "tuple[".toList <+: ty := List.isPrefixOf_iff_prefix.mp hpre
    have hnt : ty ≠ "tuple".toList := by
      intro h
      subst h
      have h1 := hp.length_le
      have h2 : ("tuple[".toList).length = 6 := rfl
      have h3 : ("tuple".toList).length = 5 := rfl
      omega
    simp only [param_to_dyn_sol_type]
    rw [if_neg hnt, if_pos hpre, hcomps]
  · intro ep comps inner hcomps
    simp [param_to_dyn_sol_type, hcomps]

/-- Witness for `c4_tuple_bracket_normalization` at the concrete tags
`"tuple[2]"` (with one `"bool"` component) and the bare `"tuple["`. -/
theorem c4_tuple_bracket_normalization_witness :
    param_to_dyn_sol_type ep_demo (.mk "tuple[2]".toList [.mk "bool".toList []]) =
      .ok (.fixedArray (.tuple [.bool]) 2) ∧
    param_to_dyn_sol_type ep_demo (.mk "tuple[".toList []) = .error .panic := by
  constructor
  · have h := c4_tuple_bracket_normalization.1 ep_demo "tuple[2]".toList
      [.mk "bool".toList []] [.bool] rfl (by decide) rfl
    exact h.trans (by rfl)
  · exact c4_tuple_bracket_normalization.2.2 ep_demo [] [] rfl

/-- Claim C7 is the documented error contract of encoding, but the code
violates it at the failing input: a parameter whose type tag is exactly
`"tuple["` fails Type Normalization, yet the encoding does not return a
`TypeParseError` — the Rust code panics on the out-of-range string slice
`&ty_str[6..5]` (modelled as `NormError.panic`), for both entry points. -/
theorem c7_panic_on_bare_tuple_bracket :
    first_norm_error ep_demo [Param.mk "tuple[".toList []] = some .panic ∧
    encode_calldata_with_strategy ext_demo
      ⟨"f".toList, [Param.mk "tuple[".toList []], [1, 2, 3, 4], "f(t)".toList⟩
      .smartDefaults 0 = .error .panic ∧
    is_type_parse_error (encode_calldata_with_strategy ext_demo
      ⟨"f".toList, [Param.mk "tuple[".toList []], [1, 2, 3, 4], "f(t)".toList⟩
      .smartDefaults 0) = false ∧
    encode_constructor_args_with_strategy ext_demo
      ⟨some ⟨[Param.mk "tuple[".toList []]⟩, []⟩ .smartDefaults 0 = .error .panic :=
  ⟨rfl, rfl, rfl, rfl⟩

/-- For an address-free parameter list the synthesized value lists agree
between CallerAddress and SmartDefaults. -/
theorem build_values_caller_eq_smart (ext : Ext) (c : Addr) (ps : List Param)
    (h : ∀ p ∈ ps, ∃ t, param_to_dyn_sol_type ext.elemParse p = .ok t ∧
      has_addr t = false) :
    build_values ext .callerAddress c ps = build_values ext .smartDefaults c ps := by
  induction ps with
  | nil => rfl
  | cons p ps ih =>
    obtain ⟨t, hpt, hna⟩ := h p (by simp)
    simp only [build_values, hpt, strategy_value,
      ih (fun p' hp' => h p' (by simp [hp'])),
      caller_value_eq_smart_of_no_addr t c hna]

/-- Claim C10: a canonical type with no Address leaf anywhere synthesizes
identical value trees under CallerAddress and SmartDefaults for every caller
identity; consequently, for a parameter list whose descriptors all normalize
to address-free types, the CallerAddress calldata equals the SmartDefaults
calldata. -/
theorem c10_no_address_caller_equals_smart :
    (∀ (t : DynSolType) (c : Addr), t.wf = true → has_addr t = false →
      strategy_value t .callerAddress c = strategy_value t .smartDefaults c) ∧
    (∀ (ext : Ext) (f : FuncAbi) (c : Addr),
      (∀ p ∈ f.inputs, ∃ t, param_to_dyn_sol_type ext.elemParse p = .ok t ∧
        t.wf = true ∧ has_addr t = false) →
      encode_calldata_with_strategy ext f .callerAddress c =
        encode_calldata_with_strategy ext f .smartDefaults c) := by
  constructor
  · intro t c _ hna
    simpa [strategy_value] using caller_value_eq_smart_of_no_addr t c hna
  · intro ext f c h
    unfold encode_calldata_with_strategy
    rw [build_values_caller_eq_smart ext c f.inputs
      (fun p hp => (h p hp).imp (fun t ht => ⟨ht.1, ht.2.2⟩))]

/-- Witness for `c10_no_address_caller_equals_smart` at the type `uint256`
and a one-parameter function. -/
theorem c10_no_address_caller_equals_smart_witness :
    strategy_value (.uint 256) .callerAddress 5 =
      strategy_value (.uint 256) .smartDefaults 5 ∧
    encode_calldata_with_strategy ext_demo
      ⟨"g".toList, [Param.mk "uint256".toList []], [9, 9, 9, 9], "g(u)".toList⟩
      .callerAddress 5 =
    encode_calldata_with_strategy ext_demo
      ⟨"g".toList, [Param.mk "uint256".toList []], [9, 9, 9, 9], "g(u)".toList⟩
      .smartDefaults 5 :=
  ⟨c10_no_address_caller_equals_smart.1 (.uint 256) 5 rfl rfl,
   c10_no_address_caller_equals_smart.2 ext_demo
     ⟨"g".toList, [Param.mk "uint256".toList []], [9, 9, 9, 9], "g(u)".toList⟩ 5
     (by
       intro p hp
       rw [List.mem_singleton] at hp
       subst hp
       exact ⟨.uint 256, rfl, rfl, rfl⟩)⟩

/-! ## Execution ranking engine (claims C1, C2, C5, C8)

Embedding of evm.rs. The revm execution engine is external: it is modelled as
a state-transformer `transact` returning an execution result together with
the proposed post-transaction state. The source adopts that state only on the
deployment path (`transact_commit`); the function-call path uses `transact`,
which leaves the passed-in database unchanged and whose proposed state the
source discards, reading only gas and outcome. -/

/-- Execution status of a function report (`ExecutionStatus`, types.rs). -/
inductive ExecutionStatus where
  | success
  | revert
  | halt
deriving DecidableEq, Repr

/-- Per-function gas report (`FunctionReport` as used by evm.rs, which also
carries the label of the strategy that produced the reported outcome). -/
structure FunctionReport where
  name : List Char
  selector : List Char
  signature : List Char
  gas : Nat
  status : ExecutionStatus
  strategy : Option (List Char)
deriving DecidableEq, Repr

/-- Transaction kind (`TxKind`): contract creation or a call to an address. -/
inductive TxKind where
  | create
  | call (addr : Addr)
deriving DecidableEq, Repr

/-- Transaction environment (`TxEnv`) as populated by evm.rs. -/
structure TxEnv where
  caller : Addr
  gasLimit : Nat
  kind : TxKind
  data : List UInt8
  nonce : Nat
deriving DecidableEq, Repr

/-- Output of a successful execution (`revm::Output`). -/
inductive Output where
  | create (bytes : List UInt8) (addr : Option Addr)
  | call (bytes : List UInt8)
deriving DecidableEq, Repr

/-- Execution result classification (`revm::ExecutionResult`). -/
inductive ExecutionResult where
  | success (output : Output) (gasUsed : Nat)
  | revert (output : List UInt8) (gasUsed : Nat)
  | halt (reason : List Char) (gasUsed : Nat)
deriving DecidableEq, Repr

/-- The external execution engine over ledger states `σ`: `transact` returns
the execution result and the proposed post-state (adopted only when the
caller commits, as revm's `transact_commit` does). -/
structure Engine (σ : Type) where
  transact : σ → TxEnv → Except (List Char) (ExecutionResult × σ)

/-- The `GAS_LIMIT` constant of evm.rs. -/
def GAS_LIMIT : Nat := 30000000

/-- The fixed per-function strategy order (`STRATEGIES`, evm.rs). -/
def STRATEGIES : List CallStrategy :=
  [.smartDefaults, .callerAddress, .zeroDefaults]

/-- The fixed caller identity (`caller()`, evm.rs):
the address `0x1000000000000000000000000000000000000001`. -/
def caller : Addr := 0x1000000000000000000000000000000000000001

/-- Compiled contract (`CompiledContract`, types.rs): name, interface
description and linked deployable bytecode. -/
structure CompiledContract where
  name : List Char
  abi : JsonAbi
  bytecode : List UInt8

/-- Unified error type for the orchestration layer (Rust `eyre::Report`):
either a normalization/encoding failure or an engine-path message. -/
inductive RunError where
  | norm (e : NormError)
  | msg (s : List Char)
deriving DecidableEq, Repr

/-- Hexadecimal digit for a nibble. -/
def hex_digit (n : Nat) : Char :=
  if n < 10 then Char.ofNat (48 + n) else Char.ofNat (87 + n)

/-- Lowercase hex encoding of a byte list (`hex::encode`). -/
def hex_encode : List UInt8 → List Char
  | [] => []
  | b :: bs => hex_digit (b.toNat / 16) :: hex_digit (b.toNat % 16) :: hex_encode bs

/-- Embedding of `deploy` (evm.rs): submit a CREATE transaction via
`transact_commit` (the proposed state is adopted); only a Success carrying a
created address yields a deployment, everything else is an error. -/
def deploy (eng : Engine σ) (db : σ) (data : List UInt8) :
    Except (List Char) (σ × Addr) :=
  match eng.transact db ⟨caller, GAS_LIMIT, .create, data, 0⟩ with
  | .error e => .error ("deploy error: ".toList ++ e)
  | .ok (res, db2) =>
    match res with
    | .success (.create _ (some addr)) _ => .ok (db2, addr)
    | .success (.create _ none) _ =>
      .error "CREATE succeeded but no address returned".toList
    | .success (.call _) _ => .error "expected CREATE output, got CALL".toList
    | .revert out _ => .error ("deploy reverted: 0x".toList ++ hex_encode out)
    | .halt reason _ => .error ("deploy halted: ".toList ++ reason)

/-- Embedding of `call` (evm.rs): submit a CALL transaction via `transact`
(no commit — revm's `transact` leaves the passed-in database unchanged; the
proposed post-state is discarded, only gas and classification are read) and
build the function report with no strategy label yet. The second component
is the state held by the `&mut db` borrow after the call. -/
def call (eng : Engine σ) (db : σ) (addr : Addr) (func : FuncAbi)
    (calldata : List UInt8) : Except (List Char) FunctionReport × σ :=
  (match eng.transact db ⟨caller, GAS_LIMIT, .call addr, calldata, 1⟩ with
   | .error e => .error ("call error: ".toList ++ e)
   | .ok (res, _) =>
     match res with
     | .success _ g =>
       .ok ⟨func.name, '0' :: 'x' :: hex_encode func.selector, func.signature, g,
         .success, none⟩
     | .revert _ g =>
       .ok ⟨func.name, '0' :: 'x' :: hex_encode func.selector, func.signature, g,
         .revert, none⟩
     | .halt _ g =>
       .ok ⟨func.name, '0' :: 'x' :: hex_encode func.selector, func.signature, g,
         .halt, none⟩,
   db)

/-- Embedding of `status_rank` (evm.rs): Success > Revert > Halt. -/
def status_rank : ExecutionStatus → Nat
  | .success => 2
  | .revert => 1
  | .halt => 0

/-- Embedding of `strategy_label` (evm.rs). -/
def strategy_label : CallStrategy → List Char
  | .smartDefaults => "smart_defaults".toList
  | .callerAddress => "caller_address".toList
  | .zeroDefaults => "zero_defaults".toList

/-- Attach a strategy label to a report (`report.strategy = Some(...)`). -/
def set_strategy (r : FunctionReport) (s : Option (List Char)) : FunctionReport :=
  ⟨r.name, r.selector, r.signature, r.gas, r.status, s⟩

/-- The loop body of `deploy_best` (evm.rs), with the running `last_err`. -/
def deploy_best_loop (eng : Engine σ) (ext : Ext) (contract : CompiledContract)
    (db0 : σ) : List CallStrategy → Option RunError → Except RunError (σ × Addr)
  | [], lastErr => .error (lastErr.getD (.msg "deployment failed".toList))
  | s :: rest, _lastErr =>
    match encode_constructor_args_with_strategy ext contract.abi s caller with
    | .error e => deploy_best_loop eng ext contract db0 rest (some (.norm e))
    | .ok args =>
      match deploy eng db0 (contract.bytecode ++ args) with
      | .ok r => .ok r
      | .error e => deploy_best_loop eng ext contract db0 rest (some (.msg e))

/-- Embedding of `deploy_best` (evm.rs): try SmartDefaults then ZeroDefaults,
each encoding the constructor arguments and deploying against a fresh
`setup_db()` state (`db0` — `setup_db` is deterministic, so every attempt
starts from the same value); the first successful deployment wins, carrying
its committed state, and otherwise the last error seen is returned. -/
def deploy_best (eng : Engine σ) (ext : Ext) (contract : CompiledContract)
    (db0 : σ) : Except RunError (σ × Addr) :=
  deploy_best_loop eng ext contract db0 [.smartDefaults, .zeroDefaults] none

/-- One deployment attempt under a given strategy: exactly the body of one
`deploy_best` loop iteration (encode, then deploy against `db0`). -/
def deploy_attempt (eng : Engine σ) (ext : Ext) (contract : CompiledContract)
    (db0 : σ) (s : CallStrategy) : Except RunError (σ × Addr) :=
  match encode_constructor_args_with_strategy ext contract.abi s caller with
  | .error e => .error (.norm e)
  | .ok args =>
    match deploy eng db0 (contract.bytecode ++ args) with
    | .ok r => .ok r
    | .error e => .error (.msg e)

/-- The loop of `try_function` (evm.rs), threading the `&mut db` state and the
best (report, rank) seen so far; Success (rank 2) exits early. -/
def try_function_loop (eng : Engine σ) (ext : Ext) (addr : Addr) (func : FuncAbi) :
    List CallStrategy → σ → Option (FunctionReport × Nat) →
    Except (List Char) FunctionReport × σ
  | [], db, best =>
    (match best with
     | some br => .ok br.1
     | none => .error ("all strategies failed for ".toList ++ func.name ++ "()".toList),
     db)
  | s :: rest, db, best =>
    match encode_calldata_with_strategy ext func s caller with
    | .error _ => try_function_loop eng ext addr func rest db best
    | .ok cd =>
      let res := call eng db addr func cd
      match res.1 with
      | .error _ => try_function_loop eng ext addr func rest res.2 best
      | .ok r0 =>
        let r := set_strategy r0 (some (strategy_label s))
        let rank := status_rank r.status
        if rank = 2 then (.ok r, res.2)
        else
          match best with
          | none => try_function_loop eng ext addr func rest res.2 (some (r, rank))
          | some (b, brank) =>
            if brank < rank then
              try_function_loop eng ext addr func rest res.2 (some (r, rank))
            else
              try_function_loop eng ext addr func rest res.2 (some (b, brank))

/-- Embedding of `try_function` (evm.rs): the strategy sweep over
`STRATEGIES` with empty accumulator. -/
def try_function (eng : Engine σ) (ext : Ext) (db : σ) (addr : Addr)
    (func : FuncAbi) : Except (List Char) FunctionReport × σ :=
  try_function_loop eng ext addr func STRATEGIES db none

/-- One labeled strategy attempt for a function: `none` when encoding or
submission fails, otherwise the labeled report (the body of one
`try_function` loop iteration). -/
def strategy_attempt (eng : Engine σ) (ext : Ext) (db : σ) (addr : Addr)
    (func : FuncAbi) (s : CallStrategy) : Option FunctionReport :=
  match encode_calldata_with_strategy ext func s caller with
  | .error _ => none
  | .ok cd =>
    match (call eng db addr func cd).1 with
    | .error _ => none
    | .ok r => some (set_strategy r (some (strategy_label s)))

/-- Specification-side ranking accumulator of §4.4: keep the higher-ranked
report, ties keeping the earlier one (strict improvement only). -/
def rank_upd (acc : Option FunctionReport) (r : FunctionReport) :
    Option FunctionReport :=
  match acc with
  | none => some r
  | some b => if status_rank b.status < status_rank r.status then some r else acc

/-- Specification-side selection continuing from an accumulator: the first
Success report if any, otherwise the rank fold. -/
def spec_select_from (acc : Option FunctionReport) (rs : List FunctionReport) :
    Option FunctionReport :=
  match rs.find? (fun r => r.status == ExecutionStatus.success) with
  | some r => some r
  | none => rs.foldl rank_upd acc

/-- Specification-side selection rule of §4.4 over the submitted reports in
trial order: return the first Success immediately; otherwise the report whose
classification ranks highest under Success > Revert > Halt, ties keeping the
earliest-tried report. -/
def spec_select (rs : List FunctionReport) : Option FunctionReport :=
  spec_select_from none rs

/-- The per-function iteration of `execute_contract` (evm.rs): reports of
successful sweeps are appended in order, failed sweeps are skipped (with a
warning on stderr in the source), and the `&mut db` state is threaded. -/
def exec_funcs (eng : Engine σ) (ext : Ext) (addr : Addr) :
    List FuncAbi → σ → List FunctionReport × σ
  | [], db => ([], db)
  | f :: fs, db =>
    let res := try_function eng ext db addr f
    match res.1 with
    | .ok r => ((r :: (exec_funcs eng ext addr fs res.2).1),
        (exec_funcs eng ext addr fs res.2).2)
    | .error _ => exec_funcs eng ext addr fs res.2

/-- Embedding of `execute_contract` (evm.rs): deploy with the strategy
fallback, then run every function of the interface against the committed
post-deployment state. -/
def execute_contract (eng : Engine σ) (ext : Ext) (contract : CompiledContract)
    (db0 : σ) : Except RunError (List FunctionReport) :=
  match deploy_best eng ext contract db0 with
  | .error e => .error e
  | .ok (db, addr) => .ok (exec_funcs eng ext addr contract.abi.functions db).1

/-- Conversion of an `Except` to an `Option`, forgetting the error. -/
def except_to_option : Except ε α → Option α
  | .ok a => some a
  | .error _ => none

/-- The state component returned by `call` is the state it was given (revm's
`transact` does not commit). -/
theorem call_snd (eng : Engine σ) (db : σ) (addr : Addr) (f : FuncAbi)
    (cd : List UInt8) : (call eng db addr f cd).2 = db := rfl

/-- One step of the `try_function` loop in terms of the strategy attempt. -/
theorem try_function_loop_step (eng : Engine σ) (ext : Ext) (addr : Addr)
    (func : FuncAbi) (s : CallStrategy) (rest : List CallStrategy) (db : σ)
    (best : Option (FunctionReport × Nat)) :
    try_function_loop eng ext addr func (s :: rest) db best =
      (match strategy_attempt eng ext db addr func s with
       | none => try_function_loop eng ext addr func rest db best
       | some r =>
         if status_rank r.status = 2 then (.ok r, db)
         else
           match best with
           | none =>
             try_function_loop eng ext addr func rest db (some (r, status_rank r.status))
           | some (b, brank) =>
             if brank < status_rank r.status then
               try_function_loop eng ext addr func rest db (some (r, status_rank r.status))
             else try_function_loop eng ext addr func rest db (some (b, brank))) := by
  simp only [try_function_loop, strategy_attempt]
  cases hE : encode_calldata_with_strategy ext func s caller with
  | error e => simp
  | ok cd =>
    cases hc : (call eng db addr func cd).1 with
    | error e => simp [hc, call_snd]
    | ok r0 => simp [hc, call_snd]

/-- The strategy sweep threads the `&mut db` borrow through every call
without modification. -/
theorem try_function_loop_state (eng : Engine σ) (ext : Ext) (addr : Addr)
    (f : FuncAbi) : ∀ (ss : List CallStrategy) (db : σ)
    (best : Option (FunctionReport × Nat)),
    (try_function_loop eng ext addr f ss db best).2 = db := by
  intro ss
  induction ss with
  | nil => intro db best; rfl
  | cons s rest ih =>
    intro db best
    simp only [try_function_loop]
    split
    · exact ih db best
    · split
      · exact (ih _ _).trans rfl
      · split
        · rfl
        · split
          · exact (ih _ _).trans rfl
          · split
            · exact (ih _ _).trans rfl
            · exact (ih _ _).trans rfl

/-- The per-function iteration leaves the post-deployment baseline state
unchanged. -/
theorem exec_funcs_state (eng : Engine σ) (ext : Ext) (addr : Addr) :
    ∀ (fs : List FuncAbi) (db : σ), (exec_funcs eng ext addr fs db).2 = db := by
  intro fs
  induction fs with
  | nil => intro db; rfl
  | cons g fs ih =>
    intro db
    simp only [exec_funcs]
    split
    · exact (ih _).trans (try_function_loop_state eng ext addr g STRATEGIES db none)
    · exact (ih _).trans (try_function_loop_state eng ext addr g STRATEGIES db none)

/-- Claim C5: a function call never mutates the ledger state it is given —
the state after a `call` equals the state before it (the source uses revm's
non-committing `transact` and discards the proposed post-state), the state
after a whole per-function strategy sweep equals the committed
post-deployment baseline it started from, and the state after processing an
entire function list still equals that baseline, so every sweep and every
function starts from the same baseline and no call observes another call's
side effects. -/
theorem c5_calls_leave_baseline_unchanged :
    ∀ (σ : Type) (eng : Engine σ) (ext : Ext) (db : σ) (addr : Addr) (f : FuncAbi)
      (cd : List UInt8) (fs : List FuncAbi),
    (call eng db addr f cd).2 = db ∧
    (try_function eng ext db addr f).2 = db ∧
    (exec_funcs eng ext addr fs db).2 = db := by
  intro σ eng ext db addr f cd fs
  exact ⟨rfl, try_function_loop_state eng ext addr f STRATEGIES db none,
    exec_funcs_state eng ext addr fs db⟩

/-- A report's classification is Success exactly when its rank is 2. -/
theorem success_beq_iff_rank (st : ExecutionStatus) :
    (st == ExecutionStatus.success) = true ↔ status_rank st = 2 := by
  cases st <;> simp [status_rank]

/-- Prepending a non-Success report to the selection folds it into the
accumulator. -/
theorem spec_select_from_cons_not_success (acc : Option FunctionReport)
    (r : FunctionReport) (rs : List FunctionReport)
    (h : (r.status == ExecutionStatus.success) = false) :
    spec_select_from acc (r :: rs) = spec_select_from (rank_upd acc r) rs := by
  simp [spec_select_from, List.find?_cons, h]

/-- The `try_function` loop realizes the specification-side selection rule:
first Success in trial order, otherwise the highest-ranked submitted report
with ties keeping the earliest, continuing from a wellformed accumulator. -/
theorem try_function_loop_spec (eng : Engine σ) (ext : Ext) (addr : Addr)
    (func : FuncAbi) : ∀ (ss : List CallStrategy) (db : σ)
    (best : Option (FunctionReport × Nat)),
    (∀ p, best = some p → p.2 = status_rank p.1.status ∧ p.2 ≠ 2) →
    (try_function_loop eng ext addr func ss db best).1 =
      (match spec_select_from (best.map Prod.fst)
          (ss.filterMap (strategy_attempt eng ext db addr func)) with
       | some r => .ok r
       | none =>
         .error ("all strategies failed for ".toList ++ func.name ++ "()".toList)) := by
  intro ss
  induction ss with
  | nil =>
    intro db best _hwf
    cases best with
    | none => rfl
    | some p => rfl
  | cons s rest ih =>
    intro db best hwf
    rw [try_function_loop_step]
    cases hatt : strategy_attempt eng ext db addr func s with
    | none =>
      simp only [List.filterMap_cons, hatt]
      exact ih db best hwf
    | some r =>
      simp only [List.filterMap_cons, hatt]
      by_cases h2 : status_rank r.status = 2
      · have hfs : (r.status == ExecutionStatus.success) = true :=
          (success_beq_iff_rank _).mpr h2
        simp [h2, spec_select_from, List.find?_cons, hfs]
      · have hfs : (r.status == ExecutionStatus.success) = false := by
          cases hb : (r.status == ExecutionStatus.success) with
          | true => exact absurd ((success_beq_iff_rank _).mp hb) h2
          | false => rfl
        rw [spec_select_from_cons_not_success _ _ _ hfs, if_neg h2]
        cases best with
        | none =>
          have h := ih db (some (r, status_rank r.status))
            (by
              intro p hp
              rw [Option.some_inj] at hp
              rw [← hp]
              exact ⟨rfl, h2⟩)
          simpa [rank_upd] using h
        | some bp =>
          obtain ⟨b, brank⟩ := bp
          obtain ⟨hbr, hb2⟩ := hwf (b, brank) rfl
          simp only at hbr hb2
          by_cases hlt : brank < status_rank r.status
          · have hlt2 : status_rank b.status < status_rank r.status := by omega
            have h := ih db (some (r, status_rank r.status))
              (by
                intro p hp
                rw [Option.some_inj] at hp
                rw [← hp]
                exact ⟨rfl, h2⟩)
            simpa [hlt, rank_upd, hlt2] using h
          · have hlt2 : ¬ status_rank b.status < status_rank r.status := by omega
            have h := ih db (some (b, brank)) hwf
            simpa [hlt, rank_upd, hlt2] using h

/-- Claim C1: the per-function sweep tries [SmartDefaults, CallerAddress,
ZeroDefaults] in order; the report returned is the one prescribed by the
specification's selection rule over the submitted attempts in that order —
the first Success immediately, otherwise the highest classification under
Success > Revert > Halt with ties keeping the earliest-tried strategy — and
every submitted report carries the label of the strategy that produced it. -/
theorem c1_strategy_sweep_ranking :
    ∀ (σ : Type) (eng : Engine σ) (ext : Ext) (db : σ) (addr : Addr)
      (func : FuncAbi),
    ((try_function eng ext db addr func).1 =
      (match spec_select
          (STRATEGIES.filterMap (strategy_attempt eng ext db addr func)) with
       | some r => .ok r
       | none =>
         .error ("all strategies failed for ".toList ++ func.name ++ "()".toList))) ∧
    (∀ s r, strategy_attempt eng ext db addr func s = some r →
      r.strategy = some (strategy_label s)) := by
  intro σ eng ext db addr func
  constructor
  · have h := try_function_loop_spec eng ext addr func STRATEGIES db none
      (by intro p hp; simp at hp)
    simpa [try_function, spec_select] using h
  · intro s r h
    cases hE : encode_calldata_with_strategy ext func s caller with
    | error e => simp [strategy_attempt, hE] at h
    | ok cd =>
      cases hc : (call eng db addr func cd).1 with
      | error e => simp [strategy_attempt, hE, hc] at h
      | ok r0 =>
        simp only [strategy_attempt, hE, hc, Option.some_inj] at h
        rw [← h]
        rfl

/-- A demonstration engine over `σ := Nat` for witnesses: every creation
succeeds at address 77 committing state `db + 1`, every call is a Success
using 21000 gas. -/
def eng_demo : Engine Nat :=
  ⟨fun db tx =>
    match tx.kind with
    | .create => .ok (.success (.create [] (some 77)) 100, db + 1)
    | .call _ => .ok (.success (.call []) 21000, db)⟩

/-- A demonstration zero-parameter function for witnesses. -/
def func_demo : FuncAbi := ⟨"f".toList, [], [1, 2, 3, 4], "f()".toList⟩

/-- Witness for `c1_strategy_sweep_ranking`: with the demonstration engine
the sweep returns the SmartDefaults Success report, labeled accordingly. -/
theorem c1_strategy_sweep_ranking_witness :
    (try_function eng_demo ext_demo 0 42 func_demo).1 =
      .ok ⟨"f".toList, '0' :: 'x' :: hex_encode [1, 2, 3, 4], "f()".toList, 21000,
        .success, some ("smart_defaults".toList)⟩ ∧
    (⟨"f".toList, '0' :: 'x' :: hex_encode [1, 2, 3, 4], "f()".toList, 21000,
        .success, some ("smart_defaults".toList)⟩ : FunctionReport).strategy =
      some (strategy_label .smartDefaults) :=
  ⟨((c1_strategy_sweep_ranking Nat eng_demo ext_demo 0 42 func_demo).1).trans (by rfl),
   (c1_strategy_sweep_ranking Nat eng_demo ext_demo 0 42 func_demo).2
     .smartDefaults _ (by rfl)⟩

/-- One step of the `deploy_best` loop is the attempt for its strategy. -/
theorem deploy_best_loop_step (eng : Engine σ) (ext : Ext)
    (con : CompiledContract) (db0 : σ) (s : CallStrategy)
    (rest : List CallStrategy) (lastErr : Option RunError) :
    deploy_best_loop eng ext con db0 (s :: rest) lastErr =
      (match deploy_attempt eng ext con db0 s with
       | .ok r => .ok r
       | .error e => deploy_best_loop eng ext con db0 rest (some e)) := by
  simp only [deploy_best_loop, deploy_attempt]
  cases hE : encode_constructor_args_with_strategy ext con.abi s caller with
  | error e => simp
  | ok args =>
    cases hd : deploy eng db0 (con.bytecode ++ args) with
    | ok r => simp [hd]
    | error e => simp [hd]

/-- Claim C2: deployment tries exactly [SmartDefaults, ZeroDefaults] in that
order (never CallerAddress): a successful SmartDefaults attempt is returned
at once with its committed state and address; if SmartDefaults fails (in
encoding or deployment), ZeroDefaults is attempted against the same fresh
initial state and, on success, its committed state and address are returned;
if both fail the last error surfaces; and the committed state/address pair
becomes the baseline against which every function of the contract is run. -/
theorem c2_deployment_order_and_commit :
    ∀ (σ : Type) (eng : Engine σ) (ext : Ext) (con : CompiledContract) (db0 : σ),
    (∀ r, deploy_attempt eng ext con db0 .smartDefaults = .ok r →
      deploy_best eng ext con db0 = .ok r) ∧
    (∀ e r, deploy_attempt eng ext con db0 .smartDefaults = .error e →
      deploy_attempt eng ext con db0 .zeroDefaults = .ok r →
      deploy_best eng ext con db0 = .ok r) ∧
    (∀ e1 e2, deploy_attempt eng ext con db0 .smartDefaults = .error e1 →
      deploy_attempt eng ext con db0 .zeroDefaults = .error e2 →
      deploy_best eng ext con db0 = .error e2) ∧
    (∀ db addr, deploy_best eng ext con db0 = .ok (db, addr) →
      execute_contract eng ext con db0 =
        .ok (exec_funcs eng ext addr con.abi.functions db).1) := by
  intro σ eng ext con db0
  refine ⟨?_, ?_, ?_, ?_⟩
  · intro r h
    simp only [deploy_best]
    rw [deploy_best_loop_step]
    simp [h]
  · intro e r h1 h2
    simp only [deploy_best]
    rw [deploy_best_loop_step]
    simp only [h1]
    rw [deploy_best_loop_step]
    simp [h2]
  · intro e1 e2 h1 h2
    simp only [deploy_best]
    rw [deploy_best_loop_step]
    simp only [h1]
    rw [deploy_best_loop_step]
    simp [h2, deploy_best_loop]
  · intro db addr h
    simp only [execute_contract, h]

/-- A demonstration contract (no constructor) for witnesses. -/
def con_demo : CompiledContract := ⟨"C".toList, ⟨none, [func_demo]⟩, [0x60]⟩

/-- Witness for `c2_deployment_order_and_commit`: the demonstration engine
deploys with SmartDefaults at once, committing state 1 and address 77. -/
theorem c2_deployment_order_and_commit_witness :
    deploy_attempt eng_demo ext_demo con_demo 0 .smartDefaults = .ok (1, 77) ∧
    deploy_best eng_demo ext_demo con_demo 0 = .ok (1, 77) :=
  ⟨rfl, (c2_deployment_order_and_commit Nat eng_demo ext_demo con_demo 0).1 (1, 77) rfl⟩

/-- The sweep loop succeeds exactly when the accumulator is nonempty or some
remaining strategy both encodes and submits. -/
theorem try_function_loop_ok (eng : Engine σ) (ext : Ext) (addr : Addr)
    (f : FuncAbi) : ∀ (ss : List CallStrategy) (db : σ)
    (best : Option (FunctionReport × Nat)),
    except_ok (try_function_loop eng ext addr f ss db best).1 =
      (best.isSome || ss.any (fun s => (strategy_attempt eng ext db addr f s).isSome)) := by
  intro ss
  induction ss with
  | nil =>
    intro db best
    cases best <;> rfl
  | cons s rest ih =>
    intro db best
    rw [try_function_loop_step]
    cases hatt : strategy_attempt eng ext db addr f s with
    | none =>
      simp only [List.any_cons, hatt, Option.isSome_none, Bool.false_or]
      exact ih db best
    | some r =>
      simp only [List.any_cons, hatt, Option.isSome_some, Bool.true_or, Bool.or_true]
      by_cases h2 : status_rank r.status = 2
      · simp [h2, except_ok]
      · rw [if_neg h2]
        cases best with
        | none => simp [ih]
        | some bp =>
          obtain ⟨b, brank⟩ := bp
          by_cases hlt : brank < status_rank r.status
          · simp [hlt, ih]
          · simp [hlt, ih]

/-- Claim C8: an encoding (or submission) failure skips only that strategy;
the contract's report list contains exactly, in order, the reports of the
functions whose sweep succeeded; and a sweep succeeds exactly when at least
one of the three strategies both encodes and submits, so a function whose
strategies all fail contributes no report. -/
theorem c8_report_iff_some_strategy_submits :
    ∀ (σ : Type) (eng : Engine σ) (ext : Ext) (db : σ) (addr : Addr)
      (fs : List FuncAbi) (f : FuncAbi),
    (exec_funcs eng ext addr fs db).1 =
      fs.filterMap (fun g => except_to_option (try_function eng ext db addr g).1) ∧
    except_ok (try_function eng ext db addr f).1 =
      STRATEGIES.any (fun s => (strategy_attempt eng ext db addr f s).isSome) := by
  intro σ eng ext db addr fs f
  constructor
  · induction fs generalizing db with
    | nil => rfl
    | cons g fs ih =>
      simp only [exec_funcs]
      have hst : (try_function eng ext db addr g).2 = db :=
        try_function_loop_state eng ext addr g STRATEGIES db none
      rw [hst]
      cases hg : (try_function eng ext db addr g).1 with
      | ok r => simp [List.filterMap_cons, except_to_option, hg, ih db]
      | error e => simp [List.filterMap_cons, except_to_option, hg, ih db]
  · simpa [try_function] using try_function_loop_ok eng ext addr f STRATEGIES db none

/-! ## Library placeholder replacement (claim C9)

Embedding of `replace_library_placeholders` (compile.rs). The pre-link hex
byte string is modelled as a `List Char` (hex strings and `__$...$__`
placeholder tokens are ASCII, so chars model bytes 1:1). -/

/-- Whether a character list starts with the closing token `"$__"`. -/
def starts_with_dollar_uu : List Char → Bool
  | a :: b :: c :: _ => a == '$' && b == '_' && c == '_'
  | _ => false

/-- Embedding of `hex_str[i..].find("$__")`: the index of the first
occurrence of `"$__"` in the list, if any. -/
def find_dollar_uu : List Char → Option Nat
  | [] => none
  | c :: rest =>
    if starts_with_dollar_uu (c :: rest) then some 0
    else (find_dollar_uu rest).map (· + 1)

/-- Embedding of `replace_library_placeholders` (compile.rs): scanning left to
right, a `"__"` opener followed (anywhere in the remaining suffix) by a
`"$__"` closer causes the whole segment up to and including the closer to be
replaced by the same number of `'0'` characters; every other byte is copied
unchanged. -/
def replace_library_placeholders : List Char → List Char
  | [] => []
  | c1 :: rest =>
    if c1 = '_' ∧ rest.head? = some '_' then
      match find_dollar_uu (c1 :: rest) with
      | some e =>
        List.replicate (e + 3) '0' ++
          replace_library_placeholders (List.drop (e + 3) (c1 :: rest))
      | none => c1 :: replace_library_placeholders rest
    else c1 :: replace_library_placeholders rest
termination_by l => l.length
decreasing_by
  all_goals simp [List.length_drop]
  all_goals omega

/-- A list starting with `"$__"` has at least three characters. -/
theorem starts_with_dollar_uu_length (l : List Char)
    (h : starts_with_dollar_uu l = true) : 3 ≤ l.length := by
  cases l with
  | nil => simp [starts_with_dollar_uu] at h
  | cons a l1 =>
    cases l1 with
    | nil => simp [starts_with_dollar_uu] at h
    | cons b l2 =>
      cases l2 with
      | nil => simp [starts_with_dollar_uu] at h
      | cons c l3 => simp

/-- The index found for `"$__"` leaves room for the three closer characters. -/
theorem find_dollar_uu_le : ∀ (l : List Char) (e : Nat),
    find_dollar_uu l = some e → e + 3 ≤ l.length := by
  intro l
  induction l with
  | nil => intro e h; simp [find_dollar_uu] at h
  | cons c rest ih =>
    intro e h
    simp only [find_dollar_uu] at h
    by_cases hs : starts_with_dollar_uu (c :: rest) = true
    · rw [if_pos hs, Option.some_inj] at h
      rw [← h]
      exact starts_with_dollar_uu_length _ hs
    · rw [if_neg hs] at h
      cases hf : find_dollar_uu rest with
      | none => rw [hf] at h; simp at h
      | some e2 =>
        rw [hf] at h
        simp only [Option.map_some', Option.some_inj] at h
        have := ih e2 hf
        simp only [List.length_cons]
        omega

/-- Claim C9: replacing unresolved library placeholder tokens preserves the
byte string's total length exactly, for every input string — each replaced
segment is substituted by an equal number of `'0'` characters and all other
bytes are copied — hence for tokens at the start, middle or end, and for zero
or multiple occurrences. -/
theorem c9_replace_placeholders_preserves_length (s : List Char) :
    (replace_library_placeholders s).length = s.length := by
  induction s using replace_library_placeholders.induct with
  | case1 => simp [replace_library_placeholders]
  | case2 c1 rest h e hf ih =>
    have hle := find_dollar_uu_le _ _ hf
    simp only [replace_library_placeholders, if_pos h, hf, List.length_append,
      List.length_replicate, ih, List.length_drop]
    simp only [List.length_cons] at hle ⊢
    omega
  | case3 c1 rest h hf ih =>
    simp [replace_library_placeholders, if_pos h, hf, ih]
  | case4 c1 rest h ih =>
    simp [replace_library_placeholders, if_neg h, ih]

end SigScan
